import Mathlib

/-!
Verification development for the elysium Lelantus mint bookkeeping layer
(zcoin repository): a shallow embedding of

* `LelantusDb::GetNextSequence` (src/elysium/lelantusdb.h),
* the key/coin derivation pipeline `GenerateSeed` / `GeneratePrivateKey` /
  `GenerateSerial` (src/elysium/lelantuswallet.cpp),
* `MintEntryId` construction (src/elysium/lelantusprimitives.cpp),
* the mint-pool state machine: `FillMintPool`, `RemoveFromMintPool`,
  `SaveMintPool`, `LoadMintPool`, `RemoveInvalidMintPoolEntries`,
  `ReloadMasterKey`, `WriteMint`, `GenerateMint`, `ClearMintsChainState`
  (src/elysium/lelantuswallet.cpp),

together with theorems settling the spec claims about this code.

External collaborators (SHA-256/HMAC-SHA-512, secp256k1 key validity and
serialization, the Pedersen commitment, hash-to-scalar) are opaque
primitives in the source; they are modelled as parameters.
-/

namespace Elysium

/-! ## Part 1: the ordered key-value store and `GetNextSequence`

Keys of the underlying store (leveldb) are byte strings compared with the
bytewise comparator: lexicographic order, a strict prefix sorting before
its extensions.  `GetNextSequence` is a template over the prefix-field
tuple; the serialized prefix fields are modelled as an opaque byte string
`pfx` (faithful for the fixed-width integer fields the database uses), and
the trailing `uint64` sequence component is stored byte-swapped
(big-endian) so that lexicographic key order matches numeric order. -/

/-- Bytewise (lexicographic) comparator of the ordered store. -/
def keyLt : List Nat → List Nat → Bool
  | [], [] => false
  | [], _ :: _ => true
  | _ :: _, [] => false
  | a :: as, b :: bs => if a < b then true else if b < a then false else keyLt as bs

/-- Big-endian byte serialization of a numeric value into `n` bytes
(the byte-swapped `uint64` layout of stored sequence numbers). -/
def beBytes : Nat → Nat → List Nat
  | 0, _ => []
  | n + 1, v => beBytes n (v / 256) ++ [v % 256]

/-- Decode a big-endian byte string back into a numeric value
(the `swapByteOrder` step of `GetNextSequence`). -/
def decodeBE (l : List Nat) : Nat := l.foldl (fun acc b => acc * 256 + b) 0

/-- Largest `uint64` value, the sentinel sequence of the probe key. -/
def U64MAX : Nat := 2 ^ 64 - 1

/-- Position produced by `Iterator::Seek`: index of the first key that is
not below the target; equals `db.length` when the iterator is invalid. -/
def seekIdx (db : List (List Nat)) (target : List Nat) : Nat :=
  db.findIdx (fun k => !keyLt k target)

/-- Shallow embedding of `LelantusDb::GetNextSequence`
(src/elysium/lelantusdb.h lines 51-88).  `db` is the ordered list of raw
keys held by the store, `pfx` the serialized prefix fields.  `none` models
an uncaught deserialization exception (`CDataStream` underflow when the
stepped-to key is too short to parse as the probe's tuple shape); the code
itself never catches it. -/
def GetNextSequence (db : List (List Nat)) (pfx : List Nat) : Option Nat :=
  let probeKey := pfx ++ beBytes 8 U64MAX
  let i := seekIdx db probeKey
  if db.length ≤ i then some 0
  else if i = 0 then some 0
  else
    match db.get? (i - 1) with
    | none => none
    | some k =>
      if k.length < pfx.length + 8 then none
      else
        let decodedPfx := k.take pfx.length
        let decodedSeq := decodeBE ((k.drop pfx.length).take 8)
        if decodedPfx = pfx then some ((decodedSeq + 1) % 2 ^ 64)
        else some 0

/-- Rendering of the claim text for `NextSequence`: seek to the first key
not below the probe (an invalid iterator has no position), step to the
previous key, start at 0 when there is no such key or its decoded prefix
fields differ from the requested prefix, otherwise return the decoded
trailing sequence plus one. -/
def specSeekPos (db : List (List Nat)) (target : List Nat) : Option Nat :=
  let i := seekIdx db target
  if i < db.length then some i else none

/-- Stepping an iterator position to its predecessor; no position and the
first position have no predecessor. -/
def specPrevPos : Option Nat → Option Nat
  | none => none
  | some 0 => none
  | some (j + 1) => some j

/-- The claim's description of `NextSequence`, as a function. -/
def specNextSequence (db : List (List Nat)) (pfx : List Nat) : Nat :=
  let probeKey := pfx ++ beBytes 8 U64MAX
  match specPrevPos (specSeekPos db probeKey) with
  | none => 0
  | some j =>
    match db.get? j with
    | none => 0
    | some k =>
      if pfx.length + 8 ≤ k.length ∧ k.take pfx.length = pfx then
        decodeBE ((k.drop pfx.length).take 8) + 1
      else 0

/-! ## Part 2: cryptographic primitive collaborators

SHA-256, HMAC-SHA-512, hash-to-scalar, the secp256k1 validity predicate
and serialization, the Pedersen commitment over the fixed generators, the
outer tag hash and the serial digest are external collaborators; the
embedding is parametric in them.  `S` is the scalar type, `G` the group
element (public key / commitment) type. -/

structure CryptoPrims (S G : Type) where
  sha256 : List Nat → List Nat
  memberFromSeed : List Nat → S
  pubkeyCreate : List Nat → Option G
  pubkeySerialize : G → List Nat
  hmac512 : List Nat → Nat → List Nat
  commit : S → S → G
  hashPubcoin : G → List Nat
  hashOuter : List Nat → List Nat
  serKeyId : Nat → List Nat
  serialIdOf : S → Nat

/-- Key material and BIP44 metadata the wallet holds for one `CKeyID`
(`pwalletMain->GetKey` and `mapKeyMetadata`): the raw key bytes, the HD
master key id of the metadata, and the parsed change / address-index
components of the `hdKeypath`. -/
structure KeyInfo where
  keyData : List Nat
  hdMasterKeyID : Nat
  change : Nat
  index : Nat
deriving DecidableEq

/-- Value of `BIP44_ELYSIUM_LELANTUSMINT_INDEX`; the constant's definition
is outside the sources under verification, only its use matters. -/
def BIP44ChangeIndexVal : Nat := 5

/-- Keystore lookup by `CKeyID` (both `GetKey` and `mapKeyMetadata.find`,
which the wallet keeps for the same key ids). -/
def lookupKey (keys : List (Nat × KeyInfo)) (seedId : Nat) : Option KeyInfo :=
  (keys.find? (fun p => p.1 = seedId)).map (fun p => p.2)

/-- Shallow embedding of `LelantusWallet::GetSeedIndex`: look up the key
metadata and parse the BIP44 change and address-index components; `none`
models the "key not found" exception. -/
def GetSeedIndex (keys : List (Nat × KeyInfo)) (seedId : Nat) : Option (Nat × Nat) :=
  match lookupKey keys seedId with
  | none => none
  | some info => some (info.index, info.change)

/-- Shallow embedding of `LelantusWallet::GenerateSeed`: retrieve the key,
check the BIP44 change component, and produce the 512-bit mint seed as
HMAC-SHA-512 of the key over the seed index.  `none` models the thrown
errors (key unavailable, wrong change component). -/
def GenerateSeed {S G : Type} (C : CryptoPrims S G) (keys : List (Nat × KeyInfo))
    (seedId : Nat) : Option (Nat × List Nat) :=
  match lookupKey keys seedId with
  | none => none
  | some info =>
    match GetSeedIndex keys seedId with
    | none => none
    | some (seedIndex, change) =>
      if change ≠ BIP44ChangeIndexVal then none
      else some (seedIndex, C.hmac512 info.keyData seedIndex)

/-- Result record of `GeneratePrivateKey` (`LelantusPrivateKey` without
the fixed parameter set). -/
structure LelantusPrivateKey (S : Type) where
  serial : S
  randomness : S
  ecdsaPrivateKey : List Nat
deriving DecidableEq

/-- The do-while rejection sampling of `GeneratePrivateKey`: hash the
candidate in place until `secp256k1_ec_pubkey_create` accepts it.  The
hash is applied before the first validity test (do-while).  `fuel` bounds
the iterations; `none` models non-termination within the bound. -/
def hashLoop {S G : Type} (C : CryptoPrims S G) : Nat → List Nat → Option (List Nat × G)
  | 0, _ => none
  | fuel + 1, k =>
    let k2 := C.sha256 k
    match C.pubkeyCreate k2 with
    | some pub => some (k2, pub)
    | none => hashLoop C fuel k2

/-- Shallow embedding of `LelantusWallet::GenerateSerial`: serialize the
compressed public key (33 bytes expected), hash it, map the digest to a
scalar. -/
def GenerateSerial {S G : Type} (C : CryptoPrims S G) (pubkey : G) : Option S :=
  let compressedPub := C.pubkeySerialize pubkey
  if compressedPub.length ≠ 33 then none
  else some (C.memberFromSeed (C.sha256 compressedPub))

/-- Shallow embedding of `LelantusWallet::GeneratePrivateKey(uint512)`:
randomness scalar from the last 32 seed bytes, signing key by rejection
sampling from the first 32 bytes, serial scalar from the signing key's
public key. -/
def GeneratePrivateKey {S G : Type} (C : CryptoPrims S G) (fuel : Nat)
    (seed : List Nat) : Option (LelantusPrivateKey S) :=
  let randomnessSeed := (seed.drop 32).take 32
  let randomness := C.memberFromSeed randomnessSeed
  let sigSeed := seed.take 32
  match hashLoop C fuel sigSeed with
  | none => none
  | some (signatureKey, pubkey) =>
    match GenerateSerial C pubkey with
    | none => none
    | some serial => some ⟨serial, randomness, signatureKey⟩

/-- Shallow embedding of `LelantusWallet::GeneratePrivateKey(CKeyID)`:
regenerate the 512-bit seed for the key id, then derive. -/
def GeneratePrivateKeyFromSeedId {S G : Type} (C : CryptoPrims S G) (fuel : Nat)
    (keys : List (Nat × KeyInfo)) (seedId : Nat) : Option (LelantusPrivateKey S) :=
  match GenerateSeed C keys seedId with
  | none => none
  | some (_, seed) => GeneratePrivateKey C fuel seed

/-- Shallow embedding of the `MintEntryId` constructor
(src/elysium/lelantusprimitives.cpp lines 22-34): commit the serial and
randomness over the default generators (the amount does not enter), hash
the commitment, then hash that digest together with the seed id. -/
def MintEntryIdOf {S G : Type} (C : CryptoPrims S G) (serial randomness : S)
    (seedId : Nat) : List Nat :=
  C.hashOuter (C.hashPubcoin (C.commit serial randomness) ++ C.serKeyId seedId)

/-- The `MintEntryId` that `GenerateMint` assigns to a mint of the given
amount: the amount is not an input of the id computation. -/
def GenerateMintEntryId {S G : Type} (C : CryptoPrims S G)
    (priv : LelantusPrivateKey S) (seedId : Nat) (_amount : Nat) : List Nat :=
  MintEntryIdOf C priv.serial priv.randomness seedId

/-- Concrete instantiation of the primitive collaborators used to
evaluate the embedding on test vectors. -/
def CW : CryptoPrims Nat Nat where
  sha256 := fun l => l.map (fun b => b + 1)
  memberFromSeed := fun l => l.foldl (fun a b => a + b) 0
  pubkeyCreate := fun l => some (l.foldl (fun a b => a + b) 0)
  pubkeySerialize := fun g => List.replicate 33 g
  hmac512 := fun key idx => List.replicate 32 (key.foldl (fun a b => a + b) 0) ++ List.replicate 32 idx
  commit := fun s r => s + 2 * r
  hashPubcoin := fun g => [g]
  hashOuter := fun l => 7 :: l
  serKeyId := fun n => [n]
  serialIdOf := fun s => s

/-! ## Part 3: the mint pool and wallet mint lifecycle

State machine embedding of `LelantusWallet` (lelantuswallet.cpp).  The
in-memory pool is the multi-indexed container (ordered uniquely by
derivation index, hashed uniquely by id), modelled as a list kept sorted
by index.  Database write primitives can fail; the `Beh` flags inject
those failures.  Each operation returns an outcome (`none` models
divergence of the underlying loop within the fuel bound, `some (.error e)`
a thrown exception), the wallet state as left behind by the call, and the
list of state-mutating events it performed, in order. -/

def MINTPOOL_CAPACITY : Nat := 20

/-- One `LelantusWallet::MintPoolEntry`. -/
structure MintPoolEntry where
  id : List Nat
  seedId : Nat
  index : Nat
deriving DecidableEq

/-- Insertion into the multi-indexed pool: rejected when the index or id
is already present (both indices are unique), otherwise placed in index
order. -/
def poolInsert (pool : List MintPoolEntry) (e : MintPoolEntry) : List MintPoolEntry :=
  if pool.any (fun x => x.index == e.index || x.id == e.id) then pool
  else pool.takeWhile (fun x => x.index < e.index)
    ++ e :: pool.dropWhile (fun x => x.index < e.index)

/-- Erasure from the pool through the hashed id index (ids are unique). -/
def poolEraseId (pool : List MintPoolEntry) (i : List Nat) : List MintPoolEntry :=
  pool.filter (fun x => x.id != i)

/-- Chain state of a mint.  A default-constructed state is unconfirmed;
the sigma variant's `chainState.block >= 0` confirmation test shows the
unconfirmed block is negative. -/
structure LelantusMintChainState where
  block : Int
  group : Nat
  idx : Nat
deriving DecidableEq

def defaultChainState : LelantusMintChainState := ⟨-1, 0, 0⟩

/-- One wallet mint record (`LelantusMint`).  `uint256` transaction hashes
are modelled as `Nat` with `0` for the null hash. -/
structure LelantusMint where
  property : Nat
  amount : Nat
  seedId : Nat
  serialId : Nat
  createdTx : Nat
  chainState : LelantusMintChainState
  spendTx : Nat
deriving DecidableEq

/-- The `LelantusMint(property, amount, seedId, serialId)` constructor:
other fields default-constructed. -/
def mkLelantusMint (property amount seedId serialId : Nat) : LelantusMint :=
  ⟨property, amount, seedId, serialId, 0, defaultChainState, 0⟩

/-- A `LelantusMintId(property, amount, mintId)` value. -/
structure LelantusMintId where
  property : Nat
  amount : Nat
  id : List Nat
deriving DecidableEq

/-- Failure-injection flags for the database write/read primitives. -/
structure Beh where
  mintWriteOk : Bool
  mintIdWriteOk : Bool
  poolWriteOk : Bool
  poolReadOk : Bool
deriving DecidableEq

/-- The wallet state: lock flag, HD chain master key id and the wallet's
cached `masterId` field (`0` models a null `uint160`), the next fresh key
index of the keystore, the keystore itself, the in-memory and persisted
pools, the mint and serial-id tables of the wallet database, and the
failure-injection flags. -/
structure WState where
  locked : Bool
  hdMasterKeyId : Nat
  masterId : Nat
  nextKeyIndex : Nat
  keys : List (Nat × KeyInfo)
  pool : List MintPoolEntry
  dbPool : List MintPoolEntry
  dbMints : List (LelantusMintId × LelantusMint)
  dbMintIds : List (Nat × LelantusMintId)
  beh : Beh
deriving DecidableEq

/-- State-mutating events an operation performs, in order. -/
inductive Ev where
  | dbWriteMint
  | dbWriteMintId
  | poolErase
  | savePool
  | fillEnter
  | genKey
deriving DecidableEq

/-- Thrown errors. -/
inductive Err where
  | persistFail
  | walletLocked
  | masterIdNull
  | poolEmpty
  | keyError
deriving DecidableEq

/-- Outcome, final state and event trace of a wallet operation; a `none`
outcome models divergence within the fuel bound. -/
abbrev WResult (α : Type) := Option (Except Err α) × WState × List Ev

/-- Shallow embedding of `SaveMintPool` (collect the pool, write it
wholesale; throw when the write fails, mutating nothing). -/
def SaveMintPool (st : WState) : WResult Unit :=
  if st.beh.poolWriteOk then (some (.ok ()), { st with dbPool := st.pool }, [.savePool])
  else (some (.error .persistFail), st, [])

/-- Shallow embedding of `RemoveFromMintPool`: erase through the id index
and persist when found, otherwise return false and change nothing. -/
def RemoveFromMintPool (st : WState) (i : List Nat) : WResult Bool :=
  if st.pool.any (fun x => x.id == i) then
    let st1 := { st with pool := poolEraseId st.pool i }
    match SaveMintPool st1 with
    | (some (.ok _), st2, ev) => (some (.ok true), st2, .poolErase :: ev)
    | (some (.error e), st2, ev) => (some (.error e), st2, .poolErase :: ev)
    | (none, st2, ev) => (none, st2, .poolErase :: ev)
  else (some (.ok false), st, [])

/-- Model of `CWallet::GenerateNewKey(BIP44ChangeIndex())` inside
`GenerateNewSeed`: a fresh key id whose metadata is bound to the current
HD master key with the requested change component; key id, key bytes and
BIP44 address index are represented by the wallet's fresh index. -/
def GenerateNewKey (st : WState) : Nat × WState :=
  let sid := st.nextKeyIndex
  (sid, { st with
    nextKeyIndex := sid + 1,
    keys := (sid, ⟨[sid], st.hdMasterKeyId, BIP44ChangeIndexVal, sid⟩) :: st.keys })

/-- The `while (mintPool.size() < MINTPOOL_CAPACITY)` loop body of
`FillMintPool`: generate a new seed and derive its key; the insertion into
the pool is commented out in the source, so the body never grows the
pool.  `fuel` bounds the iterations. -/
def fillLoop {S G : Type} (C : CryptoPrims S G) : Nat → WState → Nat → WResult Nat
  | 0, st, gen =>
    if MINTPOOL_CAPACITY ≤ st.pool.length then (some (.ok gen), st, [])
    else (none, st, [])
  | fuel + 1, st, gen =>
    if MINTPOOL_CAPACITY ≤ st.pool.length then (some (.ok gen), st, [])
    else
      let st1 := (GenerateNewKey st).2
      match GenerateSeed C st1.keys (GenerateNewKey st).1 with
      | none => (some (.error .keyError), st1, [.genKey])
      | some (_, seed) =>
        match GeneratePrivateKey C fuel seed with
        | none => (none, st1, [.genKey])
        | some _ =>
          match fillLoop C fuel st1 (gen + 1) with
          | (res, st2, ev) => (res, st2, .genKey :: ev)

/-- Shallow embedding of `FillMintPool`: run the loop, then persist the
pool when any coins were generated. -/
def FillMintPool {S G : Type} (C : CryptoPrims S G) (fuel : Nat) (st : WState) :
    WResult Nat :=
  match fillLoop C fuel st 0 with
  | (none, st1, ev) => (none, st1, .fillEnter :: ev)
  | (some (.error e), st1, ev) => (some (.error e), st1, .fillEnter :: ev)
  | (some (.ok gen), st1, ev) =>
    if 0 < gen then
      match SaveMintPool st1 with
      | (some (.ok _), st2, ev2) => (some (.ok gen), st2, .fillEnter :: (ev ++ ev2))
      | (some (.error e), st2, ev2) => (some (.error e), st2, .fillEnter :: (ev ++ ev2))
      | (none, st2, ev2) => (none, st2, .fillEnter :: (ev ++ ev2))
    else (some (.ok gen), st1, .fillEnter :: ev)

/-- Shallow embedding of `LoadMintPool`: clear the pool, then insert every
persisted entry when the read succeeds. -/
def LoadMintPool (st : WState) : WState :=
  if st.beh.poolReadOk then { st with pool := st.dbPool.foldl poolInsert [] }
  else { st with pool := [] }

/-- Validity test of `RemoveInvalidMintPoolEntries`: the entry's seed id
has key metadata and that metadata belongs to the wallet's master id. -/
def entryValid (st : WState) (e : MintPoolEntry) : Bool :=
  match lookupKey st.keys e.seedId with
  | none => false
  | some info => info.hdMasterKeyID == st.masterId

/-- Shallow embedding of `RemoveInvalidMintPoolEntries`: drop entries not
belonging to the current master id and persist when anything was dropped.
The C++ loop erases through an iterator it then increments; the intended
one-pass filter semantics is modelled. -/
def RemoveInvalidMintPoolEntries (st : WState) : WResult Unit :=
  if st.pool.any (fun e => !entryValid st e) then
    SaveMintPool { st with pool := st.pool.filter (entryValid st) }
  else (some (.ok ()), st, [])

/-- Shallow embedding of `ReloadMasterKey`: refuse when locked, adopt the
HD chain's master key id (refusing a null id), reload the persisted pool,
purge foreign entries, refill. -/
def ReloadMasterKey {S G : Type} (C : CryptoPrims S G) (fuel : Nat) (st : WState) :
    WResult Unit :=
  if st.locked then (some (.error .walletLocked), st, [])
  else
    let st0 := { st with masterId := st.hdMasterKeyId }
    if st0.masterId = 0 then (some (.error .masterIdNull), st0, [])
    else
      let st1 := LoadMintPool st0
      match RemoveInvalidMintPoolEntries st1 with
      | (some (.ok _), st2, ev) =>
        match FillMintPool C fuel st2 with
        | (some (.ok _), st3, ev2) => (some (.ok ()), st3, ev ++ ev2)
        | (some (.error e), st3, ev2) => (some (.error e), st3, ev ++ ev2)
        | (none, st3, ev2) => (none, st3, ev ++ ev2)
      | (some (.error e), st2, ev) => (some (.error e), st2, ev)
      | (none, st2, ev) => (none, st2, ev)

/-- Keyed upsert into an association list (`CWalletDB` writes overwrite
an existing record under the same key). -/
def upsert {α β : Type} [BEq α] (l : List (α × β)) (a : α) (b : β) : List (α × β) :=
  if l.any (fun p => p.1 == a) then l.map (fun p => if p.1 == a then (a, b) else p)
  else l ++ [(a, b)]

/-- Shallow embedding of `LelantusWallet::WriteMint`: write the mint
record (throw on failure), write the serial-id index entry (throw on
failure), then remove the consumed entry from the pool and refill. -/
def WriteMintW {S G : Type} (C : CryptoPrims S G) (fuel : Nat) (st : WState)
    (id : LelantusMintId) (mint : LelantusMint) : WResult Unit :=
  if !st.beh.mintWriteOk then (some (.error .persistFail), st, [])
  else
    let st1 := { st with dbMints := upsert st.dbMints id mint }
    if !st.beh.mintIdWriteOk then (some (.error .persistFail), st1, [.dbWriteMint])
    else
      let st2 := { st1 with dbMintIds := upsert st1.dbMintIds mint.serialId id }
      match RemoveFromMintPool st2 id.id with
      | (some (.ok _), st3, ev) =>
        match FillMintPool C fuel st3 with
        | (some (.ok _), st4, ev2) =>
          (some (.ok ()), st4, .dbWriteMint :: .dbWriteMintId :: (ev ++ ev2))
        | (some (.error e), st4, ev2) =>
          (some (.error e), st4, .dbWriteMint :: .dbWriteMintId :: (ev ++ ev2))
        | (none, st4, ev2) =>
          (none, st4, .dbWriteMint :: .dbWriteMintId :: (ev ++ ev2))
      | (some (.error e), st3, ev) => (some (.error e), st3, .dbWriteMint :: .dbWriteMintId :: ev)
      | (none, st3, ev) => (none, st3, .dbWriteMint :: .dbWriteMintId :: ev)

/-- Key material available to derivation: a locked wallet cannot release
keys (`GetKey` fails). -/
def walletKeys (st : WState) : List (Nat × KeyInfo) :=
  if st.locked then [] else st.keys

/-- The tail of `GenerateMint` once a seed id is fixed: derive the key,
build the `MintEntryId`, serial id and mint record, and hand them to
`WriteMint`. -/
def GenerateMintWithSeed {S G : Type} (C : CryptoPrims S G) (fuel : Nat) (st : WState)
    (property amount seedId : Nat) : WResult LelantusMintId :=
  match GeneratePrivateKeyFromSeedId C fuel (walletKeys st) seedId with
  | none => (some (.error .keyError), st, [])
  | some priv =>
    let mintId := GenerateMintEntryId C priv seedId amount
    let serialId := C.serialIdOf priv.serial
    let mint := mkLelantusMint property amount seedId serialId
    let lid : LelantusMintId := ⟨property, amount, mintId⟩
    match WriteMintW C fuel st lid mint with
    | (some (.ok _), st2, ev) => (some (.ok lid), st2, ev)
    | (some (.error e), st2, ev) => (some (.error e), st2, ev)
    | (none, st2, ev) => (none, st2, ev)

/-- Shallow embedding of `GenerateMint`: with no explicit seed id, refuse
when locked, take the oldest pool entry, after a reload when the pool is
empty, failing only if the pool is empty after the reload. -/
def GenerateMint {S G : Type} (C : CryptoPrims S G) (fuel : Nat) (st : WState)
    (property amount : Nat) (seedId : Option Nat) : WResult LelantusMintId :=
  match seedId with
  | some sid => GenerateMintWithSeed C fuel st property amount sid
  | none =>
    if st.locked then (some (.error .walletLocked), st, [])
    else
      match st.pool.head? with
      | some e => GenerateMintWithSeed C fuel st property amount e.seedId
      | none =>
        match ReloadMasterKey C fuel st with
        | (some (.ok _), st1, ev) =>
          match st1.pool.head? with
          | none => (some (.error .poolEmpty), st1, ev)
          | some e =>
            match GenerateMintWithSeed C fuel st1 property amount e.seedId with
            | (res, st2, ev2) => (res, st2, ev ++ ev2)
        | (some (.error e), st1, ev) => (some (.error e), st1, ev)
        | (none, st1, ev) => (none, st1, ev)

/-- The write loop of `ClearMintsChainState` under one `CWalletDB`
transaction: reset every record's chain state and spend marker; a write
failure throws before `TxnCommit`, discarding the transaction. -/
def clearLoop (ok : Bool) :
    List (LelantusMintId × LelantusMint) → Option (List (LelantusMintId × LelantusMint))
  | [] => some []
  | p :: rest =>
    if ok then
      match clearLoop ok rest with
      | none => none
      | some r => some ((p.1, { p.2 with chainState := defaultChainState, spendTx := 0 }) :: r)
    else none

/-- Shallow embedding of `ClearMintsChainState`: list all mints, reset
each inside one transaction, commit; on a failed write the transaction is
never committed and the database is unchanged. -/
def ClearMintsChainState (st : WState) : Except Err Unit × WState :=
  match clearLoop st.beh.mintWriteOk st.dbMints with
  | none => (.error .persistFail, st)
  | some updated => (.ok (), { st with dbMints := updated })

/-- Concrete behaviour with no injected failures. -/
def allOk : Beh := ⟨true, true, true, true⟩

/-- Concrete base wallet state used to evaluate the embedding. -/
def baseState : WState :=
  { locked := false, hdMasterKeyId := 1, masterId := 1, nextKeyIndex := 0,
    keys := [], pool := [], dbPool := [], dbMints := [], dbMintIds := [],
    beh := allOk }

/-- Concrete pool of `MINTPOOL_CAPACITY` distinct entries. -/
def fullPool : List MintPoolEntry :=
  (List.range MINTPOOL_CAPACITY).map (fun n => ⟨[n], n, n⟩)

/-! ## Theorems -/

/-! Arithmetic facts about the byte codec. -/

theorem decodeBE_foldl_init (l : List Nat) (a : Nat) :
    l.foldl (fun acc b => acc * 256 + b) a = a * 256 ^ l.length + decodeBE l := by
  induction l generalizing a with
  | nil => simp [decodeBE]
  | cons b t ih =>
    simp only [List.foldl_cons]
    rw [ih (a * 256 + b)]
    have hb : decodeBE (b :: t) = b * 256 ^ t.length + decodeBE t := by
      simp only [decodeBE, List.foldl_cons, Nat.zero_mul, Nat.zero_add]
      exact ih b
    rw [hb, List.length_cons]
    ring

theorem decodeBE_append (l₁ l₂ : List Nat) :
    decodeBE (l₁ ++ l₂) = decodeBE l₁ * 256 ^ l₂.length + decodeBE l₂ := by
  simp only [decodeBE, List.foldl_append]
  exact decodeBE_foldl_init l₂ _

theorem decodeBE_cons (b : Nat) (l : List Nat) :
    decodeBE (b :: l) = b * 256 ^ l.length + decodeBE l := by
  simp only [decodeBE, List.foldl_cons, Nat.zero_mul, Nat.zero_add]
  exact decodeBE_foldl_init l b

theorem decodeBE_lt (l : List Nat) (h : ∀ b ∈ l, b < 256) :
    decodeBE l < 256 ^ l.length := by
  induction l with
  | nil => simp [decodeBE]
  | cons b t ih =>
    have hb : b < 256 := h b (by simp)
    have ht : decodeBE t < 256 ^ t.length := ih (fun x hx => h x (by simp [hx]))
    rw [decodeBE_cons]
    calc b * 256 ^ t.length + decodeBE t
        < b * 256 ^ t.length + 256 ^ t.length := by omega
      _ = (b + 1) * 256 ^ t.length := by ring
      _ ≤ 256 * 256 ^ t.length := by
          exact Nat.mul_le_mul_right _ (by omega)
      _ = 256 ^ (t.length + 1) := by ring
      _ = 256 ^ (b :: t).length := by simp

theorem beBytes_length (n v : Nat) : (beBytes n v).length = n := by
  induction n generalizing v with
  | zero => simp [beBytes]
  | succ n ih => simp [beBytes, ih]

theorem decodeBE_beBytes (n v : Nat) (h : v < 256 ^ n) :
    decodeBE (beBytes n v) = v := by
  induction n generalizing v with
  | zero =>
    simp [beBytes, decodeBE]
    omega
  | succ n ih =>
    have hdiv : v / 256 < 256 ^ n := by
      rw [Nat.div_lt_iff_lt_mul (by norm_num)]
      calc v < 256 ^ (n + 1) := h
        _ = 256 ^ n * 256 := by ring
    rw [beBytes, decodeBE_append, ih _ hdiv]
    simp [decodeBE]
    omega

theorem keyLt_append_left (a x y : List Nat) :
    keyLt (a ++ x) (a ++ y) = keyLt x y := by
  induction a with
  | nil => rfl
  | cons b t ih => simp [keyLt, ih]

/-- A byte string below `n` bytes of `0xFF` decodes, on its first `n`
bytes, to a value below `256 ^ n - 1`. -/
theorem decodeBE_lt_of_keyLt_maxKey (n : Nat) (tail : List Nat)
    (hlen : n ≤ tail.length) (hbytes : ∀ b ∈ tail, b < 256)
    (hlt : keyLt tail (List.replicate n 255) = true) :
    decodeBE (tail.take n) < 256 ^ n - 1 := by
  induction n generalizing tail with
  | zero =>
    exfalso
    cases tail with
    | nil => simp [keyLt, List.replicate] at hlt
    | cons b t => simp [keyLt, List.replicate] at hlt
  | succ n ih =>
    cases tail with
    | nil => simp at hlen
    | cons b t =>
      have hb : b < 256 := hbytes b (by simp)
      have htlen : n ≤ t.length := by simpa using hlen
      have htadd : (t.take n).length = n := by simp [htlen]
      simp only [List.replicate, keyLt] at hlt
      by_cases hblt : b < 255
      · have htake : decodeBE (t.take n) < 256 ^ n := by
          have h := decodeBE_lt (t.take n) (fun x hx => hbytes x (by
            simp only [List.mem_cons]
            right
            exact List.mem_of_mem_take hx))
          rwa [htadd] at h
        rw [List.take_succ_cons, decodeBE_cons, htadd]
        have hb254 : b ≤ 254 := by omega
        have h1 : b * 256 ^ n ≤ 254 * 256 ^ n := Nat.mul_le_mul_right _ hb254
        have hpow : 1 ≤ 256 ^ n := Nat.one_le_pow _ _ (by norm_num)
        have heq : 256 ^ (n + 1) = 256 * 256 ^ n := by ring
        omega
      · have hbeq : b = 255 := by
          simp only [if_neg hblt] at hlt
          by_cases h255 : 255 < b
          · simp [h255] at hlt
          · omega
        subst hbeq
        simp only [lt_irrefl, if_false] at hlt
        have ht := ih t htlen (fun x hx => hbytes x (by simp [hx])) hlt
        rw [List.take_succ_cons, decodeBE_cons, htadd]
        have hpow : 1 ≤ 256 ^ n := Nat.one_le_pow _ _ (by norm_num)
        have heq : 256 ^ (n + 1) = 256 * 256 ^ n := by ring
        omega

theorem beBytes_max : beBytes 8 U64MAX = List.replicate 8 255 := by decide

theorem mem_of_get?_eq_some {l : List (List Nat)} {j : Nat} {k : List Nat}
    (h : l.get? j = some k) : k ∈ l := List.get?_mem h

/-- Keys strictly before the seek position compare below the target. -/
theorem keyLt_of_lt_seekIdx {db : List (List Nat)} {target k : List Nat} {j : Nat}
    (hj : j < seekIdx db target) (hget : db.get? j = some k) :
    keyLt k target = true := by
  have hjlen : j < db.length := by
    have : db.findIdx (fun k => !keyLt k target) ≤ db.length :=
      List.findIdx_le_length (fun k => !keyLt k target)
    unfold seekIdx at hj
    omega
  rw [List.get?_eq_getElem?, List.getElem?_eq_getElem hjlen] at hget
  have hnp := List.not_of_lt_findIdx hj
  simp only [Option.some_inj] at hget
  subst hget
  simpa using hnp

/-- Reduction: an invalid seek position (no key at or above the probe)
makes `GetNextSequence` return 0 immediately. -/
theorem GetNextSequence_of_seek_invalid {db : List (List Nat)} {pfx : List Nat}
    (h : db.length ≤ seekIdx db (pfx ++ beBytes 8 U64MAX)) :
    GetNextSequence db pfx = some 0 := by
  simp only [GetNextSequence]
  rw [if_pos h]

/-- Reduction: a seek landing on the first key leaves no previous key, so
`GetNextSequence` returns 0. -/
theorem GetNextSequence_of_seek_zero {db : List (List Nat)} {pfx : List Nat}
    (h : seekIdx db (pfx ++ beBytes 8 U64MAX) = 0) :
    GetNextSequence db pfx = some 0 := by
  simp only [GetNextSequence]
  rw [h]
  by_cases hlen : db.length ≤ 0
  · rw [if_pos hlen]
  · rw [if_neg hlen, if_pos rfl]

/-- Reduction of `GetNextSequence` through a valid previous key. -/
theorem GetNextSequence_of_prev {db : List (List Nat)} {pfx k : List Nat} {j : Nat}
    (hj : seekIdx db (pfx ++ beBytes 8 U64MAX) = j + 1)
    (hlt : j + 1 < db.length) (hk : db.get? j = some k)
    (hklen : pfx.length + 8 ≤ k.length) :
    GetNextSequence db pfx =
      if k.take pfx.length = pfx then
        some ((decodeBE ((k.drop pfx.length).take 8) + 1) % 2 ^ 64)
      else some 0 := by
  simp only [GetNextSequence]
  rw [hj, if_neg (by omega), if_neg (by omega)]
  simp only [Nat.add_sub_cancel, hk]
  rw [if_neg (Nat.not_lt.mpr hklen)]

/-- Reduction of the claim rendering through a valid previous key. -/
theorem specNextSequence_of_prev {db : List (List Nat)} {pfx k : List Nat} {j : Nat}
    (hj : seekIdx db (pfx ++ beBytes 8 U64MAX) = j + 1)
    (hlt : j + 1 < db.length) (hk : db.get? j = some k) :
    specNextSequence db pfx =
      if pfx.length + 8 ≤ k.length ∧ k.take pfx.length = pfx then
        decodeBE ((k.drop pfx.length).take 8) + 1
      else 0 := by
  simp only [specNextSequence, specSeekPos]
  rw [hj, if_pos hlt]
  have hprev : specPrevPos (some (j + 1)) = some j := rfl
  rw [hprev]
  simp only [hk]

/-- Characterization used by several claim conjuncts: the embedded
`GetNextSequence` agrees with the claim's iterator-level description. -/
theorem nextSeq_eq_spec (db : List (List Nat)) (pfx : List Nat)
    (hlen : ∀ k ∈ db, pfx.length + 8 ≤ k.length)
    (hbytes : ∀ k ∈ db, ∀ b ∈ k, b < 256) :
    GetNextSequence db pfx = some (specNextSequence db pfx) := by
  by_cases h1 : db.length ≤ seekIdx db (pfx ++ beBytes 8 U64MAX)
  · rw [GetNextSequence_of_seek_invalid h1]
    simp only [specNextSequence, specSeekPos]
    rw [if_neg (by omega)]
    rfl
  · have hi : seekIdx db (pfx ++ beBytes 8 U64MAX) < db.length := Nat.lt_of_not_le h1
    by_cases h2 : seekIdx db (pfx ++ beBytes 8 U64MAX) = 0
    · rw [GetNextSequence_of_seek_zero h2]
      simp only [specNextSequence, specSeekPos]
      rw [h2, if_pos (by omega)]
      rfl
    · obtain ⟨j, hj⟩ : ∃ j, seekIdx db (pfx ++ beBytes 8 U64MAX) = j + 1 :=
        ⟨seekIdx db (pfx ++ beBytes 8 U64MAX) - 1,
          (Nat.succ_pred_eq_of_pos (Nat.pos_of_ne_zero h2)).symm⟩
      have hjlt : j + 1 < db.length := by omega
      obtain ⟨k, hk⟩ : ∃ k, db.get? j = some k := by
        rw [List.get?_eq_getElem?, List.getElem?_eq_getElem (by omega : j < db.length)]
        exact ⟨_, rfl⟩
      have hkmem : k ∈ db := mem_of_get?_eq_some hk
      rw [GetNextSequence_of_prev hj hjlt hk (hlen k hkmem),
        specNextSequence_of_prev hj hjlt hk]
      by_cases h3 : k.take pfx.length = pfx
      · have hklt : keyLt k (pfx ++ beBytes 8 U64MAX) = true :=
          keyLt_of_lt_seekIdx (by omega) hk
        have hdec : decodeBE ((k.drop pfx.length).take 8) < 256 ^ 8 - 1 := by
          apply decodeBE_lt_of_keyLt_maxKey 8 (k.drop pfx.length)
          · have := hlen k hkmem
            simp only [List.length_drop]
            omega
          · exact fun b hb => hbytes k hkmem b (List.mem_of_mem_drop hb)
          · have hsplit : k = pfx ++ k.drop pfx.length := by
              conv_lhs => rw [← List.take_append_drop pfx.length k]
              rw [h3]
            rw [hsplit, beBytes_max] at hklt
            rwa [keyLt_append_left] at hklt
        have hmod : (decodeBE ((k.drop pfx.length).take 8) + 1) % 2 ^ 64
            = decodeBE ((k.drop pfx.length).take 8) + 1 := by
          apply Nat.mod_eq_of_lt
          have h256 : (256 : Nat) ^ 8 = 2 ^ 64 := by norm_num
          omega
        rw [if_pos h3, if_pos ⟨hlen k hkmem, h3⟩, hmod]
      · rw [if_neg h3, if_neg (by
          intro hand
          exact h3 hand.2)]

/-- When no stored key extends the requested prefix, the next sequence
starts at zero ("over an empty prefix it returns 0"). -/
theorem nextSeq_of_no_matching_key (db : List (List Nat)) (pfx : List Nat)
    (hlen : ∀ k ∈ db, pfx.length + 8 ≤ k.length)
    (hnone : ∀ k ∈ db, ¬ pfx <+: k) :
    GetNextSequence db pfx = some 0 := by
  by_cases h1 : db.length ≤ seekIdx db (pfx ++ beBytes 8 U64MAX)
  · exact GetNextSequence_of_seek_invalid h1
  · by_cases h2 : seekIdx db (pfx ++ beBytes 8 U64MAX) = 0
    · exact GetNextSequence_of_seek_zero h2
    · obtain ⟨j, hj⟩ : ∃ j, seekIdx db (pfx ++ beBytes 8 U64MAX) = j + 1 :=
        ⟨seekIdx db (pfx ++ beBytes 8 U64MAX) - 1,
          (Nat.succ_pred_eq_of_pos (Nat.pos_of_ne_zero h2)).symm⟩
      have hjlt : j + 1 < db.length := by omega
      obtain ⟨k, hk⟩ : ∃ k, db.get? j = some k := by
        rw [List.get?_eq_getElem?, List.getElem?_eq_getElem (by omega : j < db.length)]
        exact ⟨_, rfl⟩
      have hkmem : k ∈ db := mem_of_get?_eq_some hk
      have h3 : ¬ k.take pfx.length = pfx := by
        intro h
        apply hnone k hkmem
        have hsplit := List.take_append_drop pfx.length k
        rw [h] at hsplit
        exact ⟨k.drop pfx.length, hsplit⟩
      rw [GetNextSequence_of_prev hj hjlt hk (hlen k hkmem), if_neg h3]

/-- When the previous key is exactly the prefix followed by a big-endian
sequence value, the next sequence is that value plus one. -/
theorem nextSeq_of_prev_key (db : List (List Nat)) (pfx : List Nat) (s j : Nat)
    (hs : s < U64MAX)
    (hseek : seekIdx db (pfx ++ beBytes 8 U64MAX) = j + 1)
    (hjlt : j + 1 < db.length)
    (hget : db.get? j = some (pfx ++ beBytes 8 s)) :
    GetNextSequence db pfx = some (s + 1) := by
  have hklen : pfx.length + 8 ≤ (pfx ++ beBytes 8 s).length := by
    simp [beBytes_length]
  rw [GetNextSequence_of_prev hseek hjlt hget hklen]
  have htake : (pfx ++ beBytes 8 s).take pfx.length = pfx := List.take_left pfx _
  have hdrop : (pfx ++ beBytes 8 s).drop pfx.length = beBytes 8 s := List.drop_left pfx _
  have htake8 : (beBytes 8 s).take 8 = beBytes 8 s :=
    List.take_of_length_le (by rw [beBytes_length])
  have hsmall : s < 256 ^ 8 := by
    have h256 : (256 : Nat) ^ 8 = 2 ^ 64 := by norm_num
    unfold U64MAX at hs
    omega
  have hdec : decodeBE (beBytes 8 s) = s := decodeBE_beBytes 8 s hsmall
  have hmod : (s + 1) % 2 ^ 64 = s + 1 := by
    apply Nat.mod_eq_of_lt
    unfold U64MAX at hs
    have h2pos : (1 : Nat) ≤ 2 ^ 64 := Nat.one_le_two_pow
    omega
  rw [if_pos htake, hdrop, htake8, hdec, hmod]

/-- C1: `GetNextSequence` builds the probe key as the prefix fields
followed by the maximum sequence value, seeks to the first key at or above
the probe, steps to the previous key, and returns 0 when no such previous
key exists or when the decoded key (with its sequence substituted into the
probe) does not match the probe; otherwise it returns the decoded trailing
sequence plus one.  Over an empty prefix (no stored key extending the
prefix fields) it returns 0. -/
theorem GetNextSequence_matches_claim (db : List (List Nat)) (pfx : List Nat)
    (hlen : ∀ k ∈ db, pfx.length + 8 ≤ k.length)
    (hbytes : ∀ k ∈ db, ∀ b ∈ k, b < 256) :
    GetNextSequence db pfx = some (specNextSequence db pfx)
    ∧ ((∀ k ∈ db, ¬ pfx <+: k) → GetNextSequence db pfx = some 0)
    ∧ (∀ s j, s < U64MAX → seekIdx db (pfx ++ beBytes 8 U64MAX) = j + 1 →
        j + 1 < db.length → db.get? j = some (pfx ++ beBytes 8 s) →
        GetNextSequence db pfx = some (s + 1)) := by
  refine ⟨nextSeq_eq_spec db pfx hlen hbytes, ?_, ?_⟩
  · exact fun hnone => nextSeq_of_no_matching_key db pfx hlen hnone
  · exact fun s j hs hseek hjlt hget => nextSeq_of_prev_key db pfx s j hs hseek hjlt hget

/-- The rejection loop returns the first iterated hash of its input that
the validity predicate accepts; at least one hash is always applied. -/
theorem hashLoop_eq_iterate {S G : Type} (C : CryptoPrims S G) :
    ∀ (fuel : Nat) (k0 k : List Nat) (pub : G), hashLoop C fuel k0 = some (k, pub) →
      ∃ n, 1 ≤ n ∧ k = C.sha256^[n] k0 ∧ C.pubkeyCreate k = some pub ∧
        ∀ m, 1 ≤ m → m < n → C.pubkeyCreate (C.sha256^[m] k0) = none := by
  intro fuel
  induction fuel with
  | zero =>
    intro k0 k pub h
    simp [hashLoop] at h
  | succ fuel ih =>
    intro k0 k pub h
    simp only [hashLoop] at h
    cases hc : C.pubkeyCreate (C.sha256 k0) with
    | some p =>
      rw [hc] at h
      simp only [Option.some_inj, Prod.mk.injEq] at h
      obtain ⟨hk, hp⟩ := h
      refine ⟨1, Nat.le_refl 1, ?_, ?_, ?_⟩
      · rw [Function.iterate_one]
        exact hk.symm
      · rw [← hk, hc, hp]
      · intro m hm1 hmn
        omega
    | none =>
      rw [hc] at h
      obtain ⟨n, hn1, hk, hpub, hmin⟩ := ih (C.sha256 k0) k pub h
      refine ⟨n + 1, by omega, ?_, hpub, ?_⟩
      · rw [Function.iterate_succ_apply]
        exact hk
      · intro m hm1 hmn
        cases m with
        | zero => omega
        | succ mm =>
          rw [Function.iterate_succ_apply]
          by_cases hmm : mm = 0
          · subst hmm
            simpa using hc
          · exact hmin mm (by omega) (by omega)

/-- C10: in `GeneratePrivateKey` at least one SHA-256 application is
always performed on the first 32 seed bytes before any validity check (the
rejection loop is a do-while), so the raw first 32 seed bytes are never
used directly as the signing key; each rejected candidate is re-hashed in
place, so the accepted key is the first valid element of the iterated-hash
chain of the seed's first half. -/
theorem GeneratePrivateKey_always_hashes {S G : Type} (C : CryptoPrims S G)
    (fuel : Nat) (seed : List Nat) (priv : LelantusPrivateKey S)
    (h : GeneratePrivateKey C fuel seed = some priv) :
    ∃ n, 1 ≤ n ∧ priv.ecdsaPrivateKey = C.sha256^[n] (seed.take 32) ∧
      (C.pubkeyCreate priv.ecdsaPrivateKey).isSome = true ∧
      ∀ m, 1 ≤ m → m < n → C.pubkeyCreate (C.sha256^[m] (seed.take 32)) = none := by
  simp only [GeneratePrivateKey] at h
  cases hl : hashLoop C fuel (seed.take 32) with
  | none =>
    rw [hl] at h
    simp at h
  | some kp =>
    rw [hl] at h
    obtain ⟨signatureKey, pubkey⟩ := kp
    simp only at h
    cases hs : GenerateSerial C pubkey with
    | none =>
      rw [hs] at h
      simp at h
    | some serial =>
      rw [hs] at h
      simp only [Option.some_inj] at h
      obtain ⟨n, hn1, hk, hpub, hmin⟩ := hashLoop_eq_iterate C fuel _ _ _ hl
      refine ⟨n, hn1, ?_, ?_, hmin⟩
      · rw [← h]
        exact hk
      · rw [← h]
        simp only
        rw [hpub]
        rfl

/-- Witness for C10: on a concrete all-zero seed, with an always-valid
key predicate, the derived signing key is the hash of the raw first half
(one application), never the raw bytes themselves. -/
theorem GeneratePrivateKey_always_hashes_witness :
    (GeneratePrivateKey CW 1 (List.replicate 64 0)
        = some ⟨1089, 0, List.replicate 32 1⟩)
    ∧ ∃ n, 1 ≤ n ∧
        (LelantusPrivateKey.ecdsaPrivateKey (⟨1089, 0, List.replicate 32 1⟩ : LelantusPrivateKey Nat))
          = CW.sha256^[n] ((List.replicate 64 0).take 32) ∧
        (CW.pubkeyCreate (LelantusPrivateKey.ecdsaPrivateKey (⟨1089, 0, List.replicate 32 1⟩ : LelantusPrivateKey Nat))).isSome = true ∧
        ∀ m, 1 ≤ m → m < n →
          CW.pubkeyCreate (CW.sha256^[m] ((List.replicate 64 0).take 32)) = none :=
  ⟨by decide, GeneratePrivateKey_always_hashes CW 1 (List.replicate 64 0) ⟨1089, 0, List.replicate 32 1⟩ (by decide)⟩

/-- C3: key derivation is deterministic and depends only on the key
material and metadata stored for the requested seed id — two wallet states
agreeing there (whatever else they disagree on) derive bit-identical
private keys: same serial scalar, randomness scalar, and signing key. -/
theorem GeneratePrivateKey_deterministic {S G : Type} (C : CryptoPrims S G)
    (fuel : Nat) (keys1 keys2 : List (Nat × KeyInfo)) (seedId : Nat)
    (h : lookupKey keys1 seedId = lookupKey keys2 seedId) :
    GeneratePrivateKeyFromSeedId C fuel keys1 seedId
      = GeneratePrivateKeyFromSeedId C fuel keys2 seedId := by
  unfold GeneratePrivateKeyFromSeedId GenerateSeed GetSeedIndex
  rw [h]

/-- Witness for C3: two concrete keystores differing outside the
requested seed id derive the same private key. -/
theorem GeneratePrivateKey_deterministic_witness :
    (lookupKey [(1, ⟨[2], 7, BIP44ChangeIndexVal, 4⟩)] 1
      = lookupKey [(1, ⟨[2], 7, BIP44ChangeIndexVal, 4⟩), (2, ⟨[9], 9, 9, 9⟩)] 1)
    ∧ GeneratePrivateKeyFromSeedId CW 2 [(1, ⟨[2], 7, BIP44ChangeIndexVal, 4⟩)] 1
      = GeneratePrivateKeyFromSeedId CW 2
          [(1, ⟨[2], 7, BIP44ChangeIndexVal, 4⟩), (2, ⟨[9], 9, 9, 9⟩)] 1 :=
  ⟨by decide, GeneratePrivateKey_deterministic CW 2
    [(1, ⟨[2], 7, BIP44ChangeIndexVal, 4⟩)]
    [(1, ⟨[2], 7, BIP44ChangeIndexVal, 4⟩), (2, ⟨[9], 9, 9, 9⟩)] 1 (by decide)⟩

/-- C9 counterexample: the claim that two mints differing only in amount
receive different `MintEntryId` values is false — the id computation does
not take the amount as an input, so the ids coincide. -/
theorem MintEntryId_amount_claim_false :
    ¬ (∀ a₁ a₂ : Nat, a₁ ≠ a₂ →
        GenerateMintEntryId CW ⟨1, 1, [1]⟩ 1 a₁
          ≠ GenerateMintEntryId CW ⟨1, 1, [1]⟩ 1 a₂) := by
  intro h
  exact h 0 1 (by decide) rfl

/-! Mint pool state machine lemmas. -/

theorem GenerateNewKey_pool (st : WState) : (GenerateNewKey st).2.pool = st.pool := rfl

/-- A freshly generated key always has well-formed metadata, so
regenerating its seed succeeds. -/
theorem GenerateSeed_newKey {S G : Type} (C : CryptoPrims S G) (st : WState) :
    GenerateSeed C (GenerateNewKey st).2.keys (GenerateNewKey st).1
      = some (st.nextKeyIndex, C.hmac512 [st.nextKeyIndex] st.nextKeyIndex) := by
  simp [GenerateSeed, GenerateNewKey, GetSeedIndex, lookupKey, List.find?]

/-- The fill loop never inserts (the insertion is commented out in the
source), so a pool below capacity keeps the loop condition true and the
loop runs out of any fuel bound: it diverges. -/
theorem fillLoop_diverges {S G : Type} (C : CryptoPrims S G) :
    ∀ (fuel : Nat) (st : WState) (gen : Nat), st.pool.length < MINTPOOL_CAPACITY →
      (fillLoop C fuel st gen).1 = none := by
  intro fuel
  induction fuel with
  | zero =>
    intro st gen h
    simp only [fillLoop]
    rw [if_neg (Nat.not_le.mpr h)]
  | succ fuel ih =>
    intro st gen h
    simp only [fillLoop]
    rw [if_neg (Nat.not_le.mpr h)]
    have hpool : (GenerateNewKey st).2.pool.length < MINTPOOL_CAPACITY := by
      rw [GenerateNewKey_pool]
      exact h
    rw [GenerateSeed_newKey]
    cases hpriv : GeneratePrivateKey C fuel (C.hmac512 [st.nextKeyIndex] st.nextKeyIndex) with
    | none => simp [hpriv]
    | some priv =>
      rcases hres : fillLoop C fuel (GenerateNewKey st).2 (gen + 1) with ⟨res, st2, ev⟩
      have hnone := ih (GenerateNewKey st).2 (gen + 1) hpool
      rw [hres] at hnone
      simp [hpriv, hres, hnone]

/-- With the pool already at capacity the loop exits at once: no
generation, no state change, no events. -/
theorem fillLoop_noop {S G : Type} (C : CryptoPrims S G) (fuel : Nat) (st : WState)
    (gen : Nat) (h : MINTPOOL_CAPACITY ≤ st.pool.length) :
    fillLoop C fuel st gen = (some (.ok gen), st, []) := by
  cases fuel with
  | zero =>
    simp only [fillLoop]
    rw [if_pos h]
  | succ fuel =>
    simp only [fillLoop]
    rw [if_pos h]

/-- Divergence of `FillMintPool` below capacity, as a reusable lemma. -/
theorem FillMintPool_diverges_h {S G : Type} (C : CryptoPrims S G) (fuel : Nat)
    (st : WState) (h : st.pool.length < MINTPOOL_CAPACITY) :
    (FillMintPool C fuel st).1 = none := by
  unfold FillMintPool
  rcases hres : fillLoop C fuel st 0 with ⟨res, st1, ev⟩
  have hnone := fillLoop_diverges C fuel st 0 h
  rw [hres] at hnone
  simp only at hnone
  subst hnone
  simp

/-- At-capacity no-op of `FillMintPool`, as a reusable lemma. -/
theorem FillMintPool_noop_h {S G : Type} (C : CryptoPrims S G) (fuel : Nat)
    (st : WState) (h : MINTPOOL_CAPACITY ≤ st.pool.length) :
    FillMintPool C fuel st = (some (.ok 0), st, [.fillEnter]) := by
  unfold FillMintPool
  rw [fillLoop_noop C fuel st 0 h]
  rfl

/-- C4: `FillMintPool` diverges whenever the pool is below capacity — the
body generates seeds but its pool insertion is commented out, so the pool
never grows and the loop cannot terminate; when the pool is already at
capacity the call is a no-op: nothing generated, no pool change, no
persistence. -/
theorem FillMintPool_below_capacity_diverges {S G : Type} (C : CryptoPrims S G)
    (fuel : Nat) (st : WState) :
    (st.pool.length < MINTPOOL_CAPACITY → (FillMintPool C fuel st).1 = none)
    ∧ (MINTPOOL_CAPACITY ≤ st.pool.length →
        FillMintPool C fuel st = (some (.ok 0), st, [.fillEnter])) :=
  ⟨FillMintPool_diverges_h C fuel st, FillMintPool_noop_h C fuel st⟩

/-- Witness for C4: on a concrete empty pool the fill diverges for any
sampled fuel; on a concrete full pool it is a no-op. -/
theorem FillMintPool_below_capacity_diverges_witness :
    ({ baseState with pool := [] }.pool.length < MINTPOOL_CAPACITY
      ∧ (FillMintPool CW 3 { baseState with pool := [] }).1 = none)
    ∧ (MINTPOOL_CAPACITY ≤ { baseState with pool := fullPool }.pool.length
      ∧ FillMintPool CW 3 { baseState with pool := fullPool }
          = (some (.ok 0), { baseState with pool := fullPool }, [.fillEnter])) :=
  ⟨⟨by decide, (FillMintPool_below_capacity_diverges CW 3 { baseState with pool := [] }).1 (by decide)⟩,
   ⟨by decide, (FillMintPool_below_capacity_diverges CW 3 { baseState with pool := fullPool }).2 (by decide)⟩⟩

/-- C9 amended: `MintEntryId` is the outer hash of the commitment digest
of `Commit(serial, randomness)` (no amount input) concatenated with the
seed id; consequently two mints differing only in amount receive the same
`MintEntryId`. -/
theorem MintEntryId_formula_and_amount_free {S G : Type} (C : CryptoPrims S G)
    (priv : LelantusPrivateKey S) (seedId a₁ a₂ : Nat) :
    GenerateMintEntryId C priv seedId a₁
      = C.hashOuter (C.hashPubcoin (C.commit priv.serial priv.randomness)
          ++ C.serKeyId seedId)
    ∧ GenerateMintEntryId C priv seedId a₁ = GenerateMintEntryId C priv seedId a₂ :=
  ⟨rfl, rfl⟩

/-- C2: if the ledger write performed inside `GenerateMint` fails
(`WriteMint` throws because the mint-record write or the serial-id index
write fails), the mint pool is left completely unmodified — the consumed
entry is neither removed nor is the pool refilled or re-persisted; no pool
mutation event is performed (write-then-advance ordering). -/
theorem WriteMint_failure_leaves_pool {S G : Type} (C : CryptoPrims S G) (fuel : Nat)
    (st : WState) (id : LelantusMintId) (mint : LelantusMint)
    (h : st.beh.mintWriteOk = false ∨ st.beh.mintIdWriteOk = false) :
    (∃ e, (WriteMintW C fuel st id mint).1 = some (.error e))
    ∧ (WriteMintW C fuel st id mint).2.1.pool = st.pool
    ∧ (WriteMintW C fuel st id mint).2.1.dbPool = st.dbPool
    ∧ ∀ ev ∈ (WriteMintW C fuel st id mint).2.2,
        ev ≠ Ev.poolErase ∧ ev ≠ Ev.savePool ∧ ev ≠ Ev.fillEnter := by
  cases hw : st.beh.mintWriteOk with
  | false =>
    unfold WriteMintW
    rw [hw]
    refine ⟨⟨Err.persistFail, rfl⟩, rfl, rfl, ?_⟩
    intro ev hev
    simp at hev
  | true =>
    have hid : st.beh.mintIdWriteOk = false := by
      cases h with
      | inl h1 => rw [hw] at h1; exact absurd h1 (by simp)
      | inr h2 => exact h2
    unfold WriteMintW
    rw [hw, hid]
    refine ⟨⟨Err.persistFail, rfl⟩, rfl, rfl, ?_⟩
    intro ev hev
    simp only [Bool.not_true, Bool.false_eq_true, if_false, Bool.not_false, if_true,
      List.mem_singleton] at hev
    subst hev
    refine ⟨by decide, by decide, by decide⟩

/-- Witness for C2: concrete ledger-write failure leaves the concrete
pool and its persisted copy untouched. -/
theorem WriteMint_failure_leaves_pool_witness :
    (∃ e, (WriteMintW CW 3 { baseState with pool := [⟨[9], 3, 0⟩], beh := ⟨false, true, true, true⟩ }
        ⟨1, 10, [9]⟩ (mkLelantusMint 1 10 3 0)).1 = some (.error e))
    ∧ (WriteMintW CW 3 { baseState with pool := [⟨[9], 3, 0⟩], beh := ⟨false, true, true, true⟩ }
        ⟨1, 10, [9]⟩ (mkLelantusMint 1 10 3 0)).2.1.pool
        = { baseState with pool := [⟨[9], 3, 0⟩], beh := ⟨false, true, true, true⟩ }.pool
    ∧ (WriteMintW CW 3 { baseState with pool := [⟨[9], 3, 0⟩], beh := ⟨false, true, true, true⟩ }
        ⟨1, 10, [9]⟩ (mkLelantusMint 1 10 3 0)).2.1.dbPool
        = { baseState with pool := [⟨[9], 3, 0⟩], beh := ⟨false, true, true, true⟩ }.dbPool
    ∧ ∀ ev ∈ (WriteMintW CW 3 { baseState with pool := [⟨[9], 3, 0⟩], beh := ⟨false, true, true, true⟩ }
        ⟨1, 10, [9]⟩ (mkLelantusMint 1 10 3 0)).2.2,
        ev ≠ Ev.poolErase ∧ ev ≠ Ev.savePool ∧ ev ≠ Ev.fillEnter :=
  WriteMint_failure_leaves_pool CW 3
    { baseState with pool := [⟨[9], 3, 0⟩], beh := ⟨false, true, true, true⟩ }
    ⟨1, 10, [9]⟩ (mkLelantusMint 1 10 3 0) (Or.inl rfl)

/-- The fill operation always marks its invocation as the head of its
event trace. -/
theorem FillMintPool_trace_head {S G : Type} (C : CryptoPrims S G) (fuel : Nat)
    (st : WState) : ∃ tl, (FillMintPool C fuel st).2.2 = Ev.fillEnter :: tl := by
  unfold FillMintPool
  rcases hres : fillLoop C fuel st 0 with ⟨res, st1, ev⟩
  cases res with
  | none => exact ⟨ev, rfl⟩
  | some r =>
    cases r with
    | error e => exact ⟨ev, rfl⟩
    | ok gen =>
      rcases hsv : SaveMintPool st1 with ⟨o2, st2, ev2⟩
      by_cases hg : 0 < gen
      · cases o2 with
        | none => exact ⟨ev ++ ev2, by simp [hg, hsv]⟩
        | some r2 =>
          cases r2 with
          | error e => exact ⟨ev ++ ev2, by simp [hg, hsv]⟩
          | ok u => exact ⟨ev ++ ev2, by simp [hg, hsv]⟩
      · exact ⟨ev, by simp [hg]⟩

/-- Trace-head fact in equation form. -/
theorem FillMintPool_trace_head_eq {S G : Type} {C : CryptoPrims S G} {fuel : Nat}
    {st : WState} {res : Option (Except Err Nat)} {st4 : WState} {evF : List Ev}
    (h : FillMintPool C fuel st = (res, st4, evF)) :
    ∃ tl, evF = Ev.fillEnter :: tl := by
  obtain ⟨tl, htl⟩ := FillMintPool_trace_head C fuel st
  rw [h] at htl
  exact ⟨tl, htl⟩

/-- C6 counterexample: `RemoveFromMintPool` succeeds at a concrete input
(erasing the entry) without invoking any pool refill — the fill marker is
absent from its event trace, refuting "triggers a pool refill (Fill)
immediately afterwards" as a statement about `RemoveFromMintPool`. -/
theorem RemoveFromMintPool_triggers_no_fill :
    (RemoveFromMintPool { baseState with pool := [⟨[9], 3, 0⟩] } [9]).1 = some (.ok true)
    ∧ Ev.fillEnter ∉ (RemoveFromMintPool { baseState with pool := [⟨[9], 3, 0⟩] } [9]).2.2 := by
  refine ⟨rfl, ?_⟩
  decide

/-- Reduction of `RemoveFromMintPool` when no entry carries the id. -/
theorem RemoveFromMintPool_miss (st : WState) (i : List Nat)
    (hmiss : st.pool.any (fun x => x.id == i) = false) :
    RemoveFromMintPool st i = (some (.ok false), st, []) := by
  simp [RemoveFromMintPool, hmiss]

/-- Reduction of `RemoveFromMintPool` when an entry carries the id and the
pool write succeeds: the entry is erased and the pool persisted. -/
theorem RemoveFromMintPool_hit (st : WState) (i : List Nat)
    (hhit : st.pool.any (fun x => x.id == i) = true)
    (hpw : st.beh.poolWriteOk = true) :
    RemoveFromMintPool st i
      = (some (.ok true),
         { st with pool := poolEraseId st.pool i, dbPool := poolEraseId st.pool i },
         [.poolErase, .savePool]) := by
  simp [RemoveFromMintPool, SaveMintPool, hhit, hpw]

/-- C6 amended: `RemoveFromMintPool` erases the entry with the given id
and persists the pool, returning true; when no entry with that id exists
it returns false without error and leaves both pools unchanged; the
refill is invoked not by `RemoveFromMintPool` itself but by its caller
`WriteMint`, immediately after the removal. -/
theorem RemoveFromMintPool_spec {S G : Type} (C : CryptoPrims S G) (fuel : Nat)
    (st : WState) (i : List Nat) (id : LelantusMintId) (mint : LelantusMint) :
    (st.pool.any (fun x => x.id == i) = false →
      RemoveFromMintPool st i = (some (.ok false), st, []))
    ∧ (st.pool.any (fun x => x.id == i) = true → st.beh.poolWriteOk = true →
      RemoveFromMintPool st i
        = (some (.ok true),
           { st with pool := poolEraseId st.pool i, dbPool := poolEraseId st.pool i },
           [.poolErase, .savePool]))
    ∧ (st.beh.mintWriteOk = true → st.beh.mintIdWriteOk = true →
        st.beh.poolWriteOk = true →
      ∃ evRemove evFill, (WriteMintW C fuel st id mint).2.2
          = .dbWriteMint :: .dbWriteMintId :: (evRemove ++ .fillEnter :: evFill)
        ∧ Ev.fillEnter ∉ evRemove) := by
  refine ⟨RemoveFromMintPool_miss st i, RemoveFromMintPool_hit st i, ?_⟩
  intro hw hiw hpw
  unfold WriteMintW
  rw [hw, hiw]
  simp only [Bool.not_true, Bool.false_eq_true, if_false]
  by_cases hhit : st.pool.any (fun x => x.id == id.id) = true
  · rw [RemoveFromMintPool_hit
      { st with dbMints := upsert st.dbMints id mint,
                dbMintIds := upsert st.dbMintIds mint.serialId id } id.id hhit hpw]
    dsimp only
    split
    · rename_i st4 ev2 heq
      obtain ⟨tl, htl⟩ := FillMintPool_trace_head_eq heq
      subst htl
      exact ⟨[.poolErase, .savePool], tl, rfl, by decide⟩
    · rename_i e st4 ev2 heq
      obtain ⟨tl, htl⟩ := FillMintPool_trace_head_eq heq
      subst htl
      exact ⟨[.poolErase, .savePool], tl, rfl, by decide⟩
    · rename_i st4 ev2 heq
      obtain ⟨tl, htl⟩ := FillMintPool_trace_head_eq heq
      subst htl
      exact ⟨[.poolErase, .savePool], tl, rfl, by decide⟩
  · have hmiss : st.pool.any (fun x => x.id == id.id) = false :=
      Bool.eq_false_iff.mpr hhit
    rw [RemoveFromMintPool_miss
      { st with dbMints := upsert st.dbMints id mint,
                dbMintIds := upsert st.dbMintIds mint.serialId id } id.id hmiss]
    dsimp only
    split
    · rename_i st4 ev2 heq
      obtain ⟨tl, htl⟩ := FillMintPool_trace_head_eq heq
      subst htl
      exact ⟨[], tl, rfl, by decide⟩
    · rename_i e st4 ev2 heq
      obtain ⟨tl, htl⟩ := FillMintPool_trace_head_eq heq
      subst htl
      exact ⟨[], tl, rfl, by decide⟩
    · rename_i st4 ev2 heq
      obtain ⟨tl, htl⟩ := FillMintPool_trace_head_eq heq
      subst htl
      exact ⟨[], tl, rfl, by decide⟩

/-- Divergence of `ReloadMasterKey` when the persisted pool is empty: the
reload and purge leave an empty pool, and the refill can never bring it to
capacity (its insertion is commented out), so the reload never returns. -/
theorem ReloadMasterKey_diverges_h {S G : Type} (C : CryptoPrims S G) (fuel : Nat)
    (st : WState) (hlock : st.locked = false) (hmk : st.hdMasterKeyId ≠ 0)
    (hdb : st.dbPool = []) :
    (ReloadMasterKey C fuel st).1 = none := by
  obtain ⟨lk, mkid, mid, nk, ks, pl, dbp, dbm, dbi, bh⟩ := st
  simp only at hlock hmk hdb
  subst hlock
  subst hdb
  unfold ReloadMasterKey
  simp only [Bool.false_eq_true, if_false]
  rw [if_neg (by simpa using hmk)]
  have hload : LoadMintPool
      { locked := false, hdMasterKeyId := mkid, masterId := mkid, nextKeyIndex := nk,
        keys := ks, pool := pl, dbPool := [], dbMints := dbm, dbMintIds := dbi, beh := bh }
      = { locked := false, hdMasterKeyId := mkid, masterId := mkid, nextKeyIndex := nk,
          keys := ks, pool := [], dbPool := [], dbMints := dbm, dbMintIds := dbi, beh := bh } := by
    unfold LoadMintPool
    split
    · rfl
    · rfl
  rw [hload]
  have hri : RemoveInvalidMintPoolEntries
      { locked := false, hdMasterKeyId := mkid, masterId := mkid, nextKeyIndex := nk,
        keys := ks, pool := [], dbPool := [], dbMints := dbm, dbMintIds := dbi, beh := bh }
      = (some (.ok ()),
         { locked := false, hdMasterKeyId := mkid, masterId := mkid, nextKeyIndex := nk,
           keys := ks, pool := [], dbPool := [], dbMints := dbm, dbMintIds := dbi, beh := bh },
         []) := by
    unfold RemoveInvalidMintPoolEntries
    rfl
  rw [hri]
  dsimp only
  rcases hf : FillMintPool C fuel
      { locked := false, hdMasterKeyId := mkid, masterId := mkid, nextKeyIndex := nk,
        keys := ks, pool := [], dbPool := [], dbMints := dbm, dbMintIds := dbi, beh := bh }
    with ⟨resF, st4, evF⟩
  have hnone := FillMintPool_diverges_h C fuel
    { locked := false, hdMasterKeyId := mkid, masterId := mkid, nextKeyIndex := nk,
      keys := ks, pool := [], dbPool := [], dbMints := dbm, dbMintIds := dbi, beh := bh }
    (by norm_num [MINTPOOL_CAPACITY])
  rw [hf] at hnone
  simp only at hnone
  subst hnone
  rfl

/-- C7: when `RemoveInvalidMintPoolEntries` returns without error, every
entry remaining in the pool carries a seed id whose key metadata exists
and belongs to the current master id, and a purge persists the purged
pool; but `ReloadMasterKey` then diverges instead of refilling whenever
the surviving pool is below capacity (shown at an empty persisted pool):
the refill loop never inserts. -/
theorem ReloadMasterKey_purge_and_refill {S G : Type} (C : CryptoPrims S G) (fuel : Nat)
    (st1 : WState) :
    (∀ out st2 ev, RemoveInvalidMintPoolEntries st1 = (out, st2, ev) →
        out = some (.ok ()) →
        (∀ e ∈ st2.pool, entryValid st1 e = true)
        ∧ (st1.pool.any (fun e => !entryValid st1 e) = true → st2.dbPool = st2.pool))
    ∧ (st1.locked = false → st1.hdMasterKeyId ≠ 0 → st1.dbPool = [] →
        (ReloadMasterKey C fuel st1).1 = none) := by
  constructor
  · intro out st2 ev heq hok
    unfold RemoveInvalidMintPoolEntries at heq
    by_cases hinv : st1.pool.any (fun e => !entryValid st1 e) = true
    · rw [if_pos hinv] at heq
      unfold SaveMintPool at heq
      by_cases hpw : st1.beh.poolWriteOk = true
      · rw [if_pos (by simpa using hpw)] at heq
        have hst2 : st2
            = { st1 with pool := st1.pool.filter (entryValid st1),
                         dbPool := st1.pool.filter (entryValid st1) } := by
          have := congrArg (fun r => r.2.1) heq
          simpa using this.symm
        subst hst2
        refine ⟨?_, fun _ => rfl⟩
        intro e he
        simp only [List.mem_filter] at he
        exact he.2
      · rw [if_neg (by simpa using hpw)] at heq
        have hout : out = some (.error Err.persistFail) := by
          have := congrArg (fun r => r.1) heq
          simpa using this.symm
        rw [hout] at hok
        simp at hok
    · rw [if_neg hinv] at heq
      have hst2 : st2 = st1 := by
        have := congrArg (fun r => r.2.1) heq
        simpa using this.symm
      subst hst2
      refine ⟨?_, ?_⟩
      · intro e he
        have hall := List.any_eq_false.mp (Bool.eq_false_iff.mpr hinv) e he
        simpa using hall
      · intro habs
        exact absurd habs hinv
  · exact ReloadMasterKey_diverges_h C fuel st1

/-- Head of a pool ordered by strictly increasing derivation index is
minimal. -/
theorem chain_head_min :
    ∀ (e : MintPoolEntry) (rest : List MintPoolEntry),
      List.Chain' (fun a b => a.index < b.index) (e :: rest) →
      ∀ x ∈ e :: rest, e.index ≤ x.index := by
  intro e rest
  induction rest generalizing e with
  | nil =>
    intro _ x hx
    simp only [List.mem_singleton] at hx
    subst hx
    exact Nat.le_refl _
  | cons b t ih =>
    intro h x hx
    rcases List.chain'_cons.mp h with ⟨heb, hbt⟩
    rcases List.mem_cons.mp hx with hxe | hx2
    · subst hxe
      exact Nat.le_refl _
    · have := ih b hbt x hx2
      omega

/-- C5: with no explicit seed id, `GenerateMint` refuses a locked wallet,
consumes the lowest-index (oldest) pool entry when the pool is non-empty,
and on an empty pool attempts the full reload-and-refill cycle first; but
with an empty persisted pool that cycle diverges inside the refill (whose
insertion is commented out), so the pool-exhausted error is never
raised. -/
theorem GenerateMint_empty_pool_behavior {S G : Type} (C : CryptoPrims S G) (fuel : Nat)
    (st : WState) (property amount : Nat) :
    (st.locked = false → st.pool = [] → st.hdMasterKeyId ≠ 0 → st.dbPool = [] →
        (GenerateMint C fuel st property amount none).1 = none)
    ∧ (∀ e rest, st.locked = false → st.pool = e :: rest →
        GenerateMint C fuel st property amount none
          = GenerateMintWithSeed C fuel st property amount e.seedId)
    ∧ (∀ e rest, st.pool = e :: rest →
        List.Chain' (fun a b => a.index < b.index) st.pool →
        ∀ x ∈ st.pool, e.index ≤ x.index) := by
  refine ⟨?_, ?_, ?_⟩
  · intro hlock hpool hmk hdb
    unfold GenerateMint
    rw [hlock]
    simp only [Bool.false_eq_true, if_false]
    rw [hpool]
    simp only [List.head?_nil]
    rcases hr : ReloadMasterKey C fuel st with ⟨resR, stR, evR⟩
    have hnone := ReloadMasterKey_diverges_h C fuel st hlock hmk hdb
    rw [hr] at hnone
    simp only at hnone
    subst hnone
    rfl
  · intro e rest hlock hpool
    unfold GenerateMint
    rw [hlock]
    simp only [Bool.false_eq_true, if_false]
    rw [hpool]
    rfl
  · intro e rest hpool hchain x hx
    rw [hpool] at hchain hx
    exact chain_head_min e rest hchain x hx

/-- The transaction loop with successful writes resets exactly the chain
state and spend marker of every record. -/
theorem clearLoop_true (l : List (LelantusMintId × LelantusMint)) :
    clearLoop true l
      = some (l.map (fun p => (p.1, { p.2 with chainState := defaultChainState, spendTx := 0 }))) := by
  induction l with
  | nil => rfl
  | cons p rest ih => simp [clearLoop, ih]

/-- C8: when `ClearMintsChainState` returns, every stored mint record has
its chain state reset to the unconfirmed default and its spend hash reset
to null, while the record ids and all other fields (property, amount,
seedId, serialId, createdTx) are unchanged and in the same order; a write
failure aborts the enclosing transaction and leaves the database exactly
as it was. -/
theorem ClearMintsChainState_spec (st : WState) :
    (∀ st1, ClearMintsChainState st = (.ok (), st1) →
      (∀ p ∈ st1.dbMints, p.2.chainState = defaultChainState ∧ p.2.spendTx = 0)
      ∧ st1.dbMints.map
          (fun p => (p.1, p.2.property, p.2.amount, p.2.seedId, p.2.serialId, p.2.createdTx))
        = st.dbMints.map
          (fun p => (p.1, p.2.property, p.2.amount, p.2.seedId, p.2.serialId, p.2.createdTx)))
    ∧ (∀ e st1, ClearMintsChainState st = (.error e, st1) → st1 = st) := by
  cases hok : st.beh.mintWriteOk with
  | true =>
    have hcl := clearLoop_true st.dbMints
    constructor
    · intro st1 heq
      unfold ClearMintsChainState at heq
      rw [hok, hcl] at heq
      simp only at heq
      have hst1 : st1 =
          { st with dbMints := st.dbMints.map (fun p => (p.1, { p.2 with chainState := defaultChainState, spendTx := 0 })) } := by
        have := congrArg (fun r => r.2) heq
        simpa using this.symm
      subst hst1
      constructor
      · intro p hp
        simp only [List.mem_map] at hp
        obtain ⟨q, _, rfl⟩ := hp
        exact ⟨rfl, rfl⟩
      · simp only [List.map_map]
        rfl
    · intro e st1 heq
      unfold ClearMintsChainState at heq
      rw [hok, hcl] at heq
      simp at heq
  | false =>
    cases hmints : st.dbMints with
    | nil =>
      constructor
      · intro st1 heq
        unfold ClearMintsChainState at heq
        rw [hok, hmints] at heq
        simp only [clearLoop] at heq
        have hst1 : st1 = { st with dbMints := [] } := by
          have := congrArg (fun r => r.2) heq
          simpa using this.symm
        subst hst1
        refine ⟨by simp, ?_⟩
        simp [hmints]
      · intro e st1 heq
        unfold ClearMintsChainState at heq
        rw [hok, hmints] at heq
        simp [clearLoop] at heq
    | cons p rest =>
      constructor
      · intro st1 heq
        unfold ClearMintsChainState at heq
        rw [hok, hmints] at heq
        simp [clearLoop] at heq
      · intro e st1 heq
        unfold ClearMintsChainState at heq
        rw [hok, hmints] at heq
        simp only [clearLoop] at heq
        have := congrArg (fun r => r.2) heq
        simpa using this.symm

/-- Witness for C1: a concrete two-key store where the claim's
description agrees with the code. -/
theorem GetNextSequence_matches_claim_witness :
    (∀ k ∈ [[3, 0, 0, 0, 0, 0, 0, 0, 5], [4, 0, 0, 0, 0, 0, 0, 0, 0]],
        ([3] : List Nat).length + 8 ≤ k.length)
    ∧ GetNextSequence [[3, 0, 0, 0, 0, 0, 0, 0, 5], [4, 0, 0, 0, 0, 0, 0, 0, 0]] [3]
        = some (specNextSequence [[3, 0, 0, 0, 0, 0, 0, 0, 5], [4, 0, 0, 0, 0, 0, 0, 0, 0]] [3]) :=
  ⟨by decide,
   (GetNextSequence_matches_claim [[3, 0, 0, 0, 0, 0, 0, 0, 5], [4, 0, 0, 0, 0, 0, 0, 0, 0]] [3]
     (by decide) (by decide)).1⟩

/-- Witness for C5: the reload cycle diverges at a concrete empty-pool
state, and a concrete two-entry pool has its lowest-index entry taken. -/
theorem GenerateMint_empty_pool_behavior_witness :
    (GenerateMint CW 3 baseState 1 10 none).1 = none
    ∧ GenerateMint CW 3 { baseState with pool := [⟨[8], 2, 1⟩, ⟨[9], 3, 4⟩] } 1 10 none
        = GenerateMintWithSeed CW 3 { baseState with pool := [⟨[8], 2, 1⟩, ⟨[9], 3, 4⟩] } 1 10 2
    ∧ ∀ x ∈ ({ baseState with pool := [⟨[8], 2, 1⟩, ⟨[9], 3, 4⟩] } : WState).pool,
        (⟨[8], 2, 1⟩ : MintPoolEntry).index ≤ x.index :=
  ⟨(GenerateMint_empty_pool_behavior CW 3 baseState 1 10).1 rfl rfl (by decide) rfl,
   (GenerateMint_empty_pool_behavior CW 3 { baseState with pool := [⟨[8], 2, 1⟩, ⟨[9], 3, 4⟩] } 1 10).2.1
     ⟨[8], 2, 1⟩ [⟨[9], 3, 4⟩] rfl rfl,
   (GenerateMint_empty_pool_behavior CW 3 { baseState with pool := [⟨[8], 2, 1⟩, ⟨[9], 3, 4⟩] } 1 10).2.2
     ⟨[8], 2, 1⟩ [⟨[9], 3, 4⟩] rfl
     (by
       refine List.chain'_cons.mpr ⟨by decide, ?_⟩
       simp)⟩

/-- Witness for C6's amended statement: concrete miss and concrete
write-then-remove-then-fill trace. -/
theorem RemoveFromMintPool_spec_witness :
    RemoveFromMintPool { baseState with pool := [⟨[9], 3, 0⟩] } [7]
        = (some (.ok false), { baseState with pool := [⟨[9], 3, 0⟩] }, [])
    ∧ ∃ evRemove evFill,
        (WriteMintW CW 3 { baseState with pool := [⟨[9], 3, 0⟩] } ⟨1, 10, [9]⟩
            (mkLelantusMint 1 10 3 0)).2.2
          = .dbWriteMint :: .dbWriteMintId :: (evRemove ++ .fillEnter :: evFill)
        ∧ Ev.fillEnter ∉ evRemove :=
  ⟨(RemoveFromMintPool_spec CW 3 { baseState with pool := [⟨[9], 3, 0⟩] } [7] ⟨1, 10, [9]⟩
      (mkLelantusMint 1 10 3 0)).1 (by decide),
   (RemoveFromMintPool_spec CW 3 { baseState with pool := [⟨[9], 3, 0⟩] } [9] ⟨1, 10, [9]⟩
      (mkLelantusMint 1 10 3 0)).2.2 rfl rfl rfl⟩

/-- Witness for C7: at the concrete base state the purge returns the
state unchanged with every entry valid, and the reload diverges. -/
theorem ReloadMasterKey_purge_and_refill_witness :
    ((∀ e ∈ baseState.pool, entryValid baseState e = true)
      ∧ (baseState.pool.any (fun e => !entryValid baseState e) = true →
          baseState.dbPool = baseState.pool))
    ∧ (ReloadMasterKey CW 3 baseState).1 = none :=
  ⟨(ReloadMasterKey_purge_and_refill CW 3 baseState).1 (some (.ok ())) baseState [] rfl rfl,
   (ReloadMasterKey_purge_and_refill CW 3 baseState).2 rfl (by decide) rfl⟩

/-- Witness for C8: a concrete one-record database is reset with its
other fields intact. -/
theorem ClearMintsChainState_spec_witness :
    (∀ p ∈ ({ baseState with dbMints := [(⟨1, 5, [2]⟩,
          (⟨1, 5, 7, 8, 9, defaultChainState, 0⟩ : LelantusMint))] } : WState).dbMints,
        p.2.chainState = defaultChainState ∧ p.2.spendTx = 0)
    ∧ ({ baseState with dbMints := [(⟨1, 5, [2]⟩,
          (⟨1, 5, 7, 8, 9, defaultChainState, 0⟩ : LelantusMint))] } : WState).dbMints.map
          (fun p => (p.1, p.2.property, p.2.amount, p.2.seedId, p.2.serialId, p.2.createdTx))
        = ({ baseState with dbMints := [(⟨1, 5, [2]⟩,
            (⟨1, 5, 7, 8, 9, ⟨3, 4, 5⟩, 6⟩ : LelantusMint))] } : WState).dbMints.map
          (fun p => (p.1, p.2.property, p.2.amount, p.2.seedId, p.2.serialId, p.2.createdTx)) :=
  (ClearMintsChainState_spec { baseState with dbMints := [(⟨1, 5, [2]⟩,
      (⟨1, 5, 7, 8, 9, ⟨3, 4, 5⟩, 6⟩ : LelantusMint))] }).1
    { baseState with dbMints := [(⟨1, 5, [2]⟩,
      (⟨1, 5, 7, 8, 9, defaultChainState, 0⟩ : LelantusMint))] } rfl

end Elysium
